import Mathlib

/-!
Shallow embedding of the aw-core repository (aw_transform/filter_period_intersect.py,
aw_core/query.py, aw_datastore/storage_strategies.py) together with the parts of
aw_core (TimePeriod, Event ordering) that those modules import.

Instants and durations are modelled as integers; an event's period is the
interval from its timestamp to timestamp + duration.
-/

/-- Modelled from the spec (§4.1): the TimePeriod value type of aw_core, which is
imported by filter_period_intersect.py but is not under src/.  The python
attribute names are start/end; the second field is called `stop` here because
`end` is a Lean keyword. -/
structure TimePeriod where
  start : Int
  stop : Int
deriving DecidableEq, Repr

/-- Modelled from the spec (§4.1): duration() = end - start. -/
def TimePeriod.duration (p : TimePeriod) : Int := p.stop - p.start

/-- Modelled from the spec (§4.1): the overlapping sub-period, or none when
max(a.start, b.start) >= min(a.end, b.end) (boundary-touching periods do not
intersect). -/
def TimePeriod.intersection (a b : TimePeriod) : Option TimePeriod :=
  let s := max a.start b.start
  let e := min a.stop b.stop
  if s < e then some ⟨s, e⟩ else none

/-- Modelled from the spec (§4.1): gap(a, b) is true iff the periods neither
overlap nor touch: a.end < b.start or b.end < a.start. -/
def TimePeriod.gap (a b : TimePeriod) : Prop :=
  a.stop < b.start ∨ b.stop < a.start

instance (a b : TimePeriod) : Decidable (a.gap b) :=
  inferInstanceAs (Decidable (a.stop < b.start ∨ b.stop < a.start))

/-- Modelled from the spec (§4.1): union(a, b) = {min(a.start, b.start),
max(a.end, b.end)}. -/
def TimePeriod.union (a b : TimePeriod) : TimePeriod :=
  ⟨min a.start b.start, max a.stop b.stop⟩

/-- Modelled from the spec (§3): an Event of aw_core.models (not under src/) —
a timestamp, a non-negative duration, and an opaque data payload.  Only the
label content of the payload is ever inspected (by the label filters), so data
is modelled as the list of labels it contains. -/
structure Event where
  timestamp : Int
  duration : Int
  data : List String
deriving DecidableEq, Repr

/-- Modelled from the spec (§3): Events are totally ordered by
(timestamp, duration) ascending; this is the order python's sorted() uses. -/
def EventLE (a b : Event) : Prop :=
  a.timestamp < b.timestamp ∨ (a.timestamp = b.timestamp ∧ a.duration ≤ b.duration)

/-- Strict version of the (timestamp, duration) order. -/
def EventLT (a b : Event) : Prop :=
  a.timestamp < b.timestamp ∨ (a.timestamp = b.timestamp ∧ a.duration < b.duration)

instance : DecidableRel EventLE := fun a b =>
  inferInstanceAs (Decidable (a.timestamp < b.timestamp ∨
    (a.timestamp = b.timestamp ∧ a.duration ≤ b.duration)))

instance : DecidableRel EventLT := fun a b =>
  inferInstanceAs (Decidable (a.timestamp < b.timestamp ∨
    (a.timestamp = b.timestamp ∧ a.duration < b.duration)))

instance : IsTotal Event EventLE :=
  ⟨fun a b => by unfold EventLE; omega⟩

instance : IsTrans Event EventLE :=
  ⟨fun a b c => by unfold EventLE; omega⟩

/-- python's sorted() on events: a stable sort by (timestamp, duration). -/
def sortEvents (l : List Event) : List Event :=
  List.insertionSort EventLE l

/-- filter_period_intersect.py: _get_event_period. -/
def _get_event_period (event : Event) : TimePeriod :=
  ⟨event.timestamp, event.timestamp + event.duration⟩

/-- filter_period_intersect.py: _replace_event_period — a copy of the event
whose timestamp is the period's start and whose duration is the period's
duration; the data payload is kept. -/
def _replace_event_period (event : Event) (period : TimePeriod) : Event :=
  { event with timestamp := period.start, duration := period.duration }

/-- filter_period_intersect.py: the body of the two-pointer while loop of
_intersecting_eventpairs.  The index pair of the python loop is represented by
the pair of suffix lists; the fuel argument counts remaining loop iterations —
every iteration advances at least one of the two indices, so the wrapper's
fuel of len(events1) + len(events2) is never exhausted before a pointer runs
off its list. -/
def _intersecting_eventpairs_go :
    Nat → List Event → List Event → List (Event × Event × TimePeriod)
  | fuel + 1, e1 :: r1, e2 :: r2 =>
    let e1_p := _get_event_period e1
    let e2_p := _get_event_period e2
    match e1_p.intersection e2_p with
    | some ip =>
      (e1, e2, ip) ::
        (if e1_p.stop ≤ e2_p.stop then
          _intersecting_eventpairs_go fuel r1 (e2 :: r2)
        else
          _intersecting_eventpairs_go fuel (e1 :: r1) r2)
    | none =>
      if e1_p.stop ≤ e2_p.start then
        _intersecting_eventpairs_go fuel r1 (e2 :: r2)
      else if e2_p.stop ≤ e1_p.start then
        _intersecting_eventpairs_go fuel (e1 :: r1) r2
      else
        -- "Should be unreachable, skipping period": both pointers advance
        _intersecting_eventpairs_go fuel r1 r2
  | _, _, _ => []

/-- filter_period_intersect.py: _intersecting_eventpairs — each overlapping
pair of events from the two lists together with the period of the
intersection. -/
def _intersecting_eventpairs (events1 events2 : List Event) :
    List (Event × Event × TimePeriod) :=
  _intersecting_eventpairs_go (events1.length + events2.length) events1 events2

/-- Instrumentation of _intersecting_eventpairs: the same two-pointer loop,
counting how many iterations fall into the defensive "Should be unreachable"
branch (the final else of the no-intersection case). -/
def _degenerate_steps_go : Nat → List Event → List Event → Nat
  | fuel + 1, e1 :: r1, e2 :: r2 =>
    let e1_p := _get_event_period e1
    let e2_p := _get_event_period e2
    match e1_p.intersection e2_p with
    | some _ =>
      if e1_p.stop ≤ e2_p.stop then _degenerate_steps_go fuel r1 (e2 :: r2)
      else _degenerate_steps_go fuel (e1 :: r1) r2
    | none =>
      if e1_p.stop ≤ e2_p.start then _degenerate_steps_go fuel r1 (e2 :: r2)
      else if e2_p.stop ≤ e1_p.start then _degenerate_steps_go fuel (e1 :: r1) r2
      else 1 + _degenerate_steps_go fuel r1 r2
  | _, _, _ => 0

/-- Number of times the defensive branch of the sweep is reached on the given
(already sorted, as in filter_period_intersect) input lists. -/
def degenerate_steps (events1 events2 : List Event) : Nat :=
  _degenerate_steps_go (events1.length + events2.length) events1 events2

/-- filter_period_intersect.py: filter_period_intersect — sort both lists,
then clip each event of the first list to its intersections with events of the
second list. -/
def filter_period_intersect (events filterevents : List Event) : List Event :=
  let events := sortEvents events
  let filterevents := sortEvents filterevents
  (_intersecting_eventpairs events filterevents).map
    (fun x => _replace_event_period x.1 x.2.2)

/-- filter_period_intersect.py: the body of period_union's for loop.  The
python code keeps a merged_events list and mutates its last element; here the
current last element is the accumulator and everything before it is already
final. -/
def period_union_go (last : Event) : List Event → List Event
  | [] => [last]
  | e :: es =>
    let e_p := _get_event_period e
    let le_p := _get_event_period last
    if ¬ e_p.gap le_p then
      period_union_go (_replace_event_period last (e_p.union le_p)) es
    else
      last :: period_union_go e es

/-- filter_period_intersect.py: period_union — concatenate and sort the two
lists, then coalesce touching or overlapping periods left to right. -/
def period_union (events1 events2 : List Event) : List Event :=
  match sortEvents (events1 ++ events2) with
  | [] => []
  | e0 :: rest => period_union_go e0 rest

/-- filter_period_intersect.py: union — concatenate and sort, no merging. -/
def union (events1 events2 : List Event) : List Event :=
  sortEvents (events1 ++ events2)

/-! ### aw_datastore/storage_strategies.py — MemoryStorageStrategy -/

/-- The bucket metadata dict built by create_bucket. -/
structure BucketMetadata where
  id : String
  name : String
  type : String
  client : String
  hostname : String
  created : Int
deriving DecidableEq, Repr

/-- python's l[k:] slice for an arbitrary integer start index k. -/
def pySliceFrom {α : Type} (l : List α) (k : Int) : List α :=
  if 0 ≤ k then l.drop k.toNat else l.drop (l.length - (-k).toNat)

/-- python dict assignment d[k] = v: replaces the value of an existing key in
place, otherwise appends the new binding (dicts preserve insertion order). -/
def assocSet {β : Type} (k : String) (v : β) : List (String × β) → List (String × β)
  | [] => [(k, v)]
  | kv :: rest =>
    if kv.1 = k then (k, v) :: rest else kv :: assocSet k v rest

/-- The python exceptions the embedded code can raise: the QueryException of
query.py, and the KeyError python raises on a missing dict key — from
get_metadata inside buckets() (storage_strategies.py) and from
tfilter["transforms"] (query.py). -/
inductive QError where
  | queryException (msg : String)
  | keyError (key : String)
deriving DecidableEq, Repr

/-- MemoryStorageStrategy: the two dicts held by the class — db (bucket id to
event list) and _metadata (bucket id to metadata dict). -/
structure MemoryStorageStrategy where
  db : List (String × List Event)
  _metadata : List (String × BucketMetadata)
deriving DecidableEq, Repr

namespace MemoryStorageStrategy

/-- __init__: both dicts start empty. -/
def init : MemoryStorageStrategy := ⟨[], []⟩

/-- create_bucket: stores the metadata dict (with name defaulting to
"client-hostname" when name is missing or falsy) and sets db[bucket_id] to the
empty list. -/
def create_bucket (s : MemoryStorageStrategy) (bucket_id type_id client hostname : String)
    (created : Int) (name : Option String) : MemoryStorageStrategy :=
  let name :=
    match name with
    | none => client ++ "-" ++ hostname
    | some n => if n = "" then client ++ "-" ++ hostname else n
  { db := assocSet bucket_id [] s.db,
    _metadata := assocSet bucket_id
      ⟨bucket_id, name, type_id, client, hostname, created⟩ s._metadata }

/-- delete_bucket: removes the bucket's entries from both dicts. -/
def delete_bucket (s : MemoryStorageStrategy) (bucket_id : String) : MemoryStorageStrategy :=
  { db := s.db.filter (fun kv => kv.1 ≠ bucket_id),
    _metadata := s._metadata.filter (fun kv => kv.1 ≠ bucket_id) }

/-- get_metadata: the dict lookup self._metadata[bucket_id]; python raises
KeyError when the id has no metadata entry. -/
def get_metadata (s : MemoryStorageStrategy) (bucket_id : String) :
    Except QError BucketMetadata :=
  match s._metadata.lookup bucket_id with
  | none => .error (.keyError bucket_id)
  | some m => .ok m

/-- The for loop of buckets(): one metadata entry per key of db, in order;
the first key without metadata raises the KeyError of get_metadata. -/
def bucketsGo (s : MemoryStorageStrategy) :
    List (String × List Event) → Except QError (List (String × BucketMetadata))
  | [] => .ok []
  | kv :: rest => do
    let m ← s.get_metadata kv.1
    let more ← bucketsGo s rest
    .ok ((kv.1, m) :: more)

/-- buckets(): builds the id-to-metadata dict by calling get_metadata for every
key of db — it fails with KeyError when some bucket log has no metadata entry
(a state insert_one can produce). -/
def buckets (s : MemoryStorageStrategy) : Except QError (List (String × BucketMetadata)) :=
  bucketsGo s s.db

/-- get: returns [] for a bucket id absent from db, otherwise the python slice
db[bucket][-limit:]. -/
def get (s : MemoryStorageStrategy) (bucket : String) (limit : Int) : List Event :=
  match s.db.lookup bucket with
  | none => []
  | some evs => pySliceFrom evs (-limit)

/-- insert_one: creates an empty event list for an unknown bucket id, then
appends the event. -/
def insert_one (s : MemoryStorageStrategy) (bucket : String) (event : Event) :
    MemoryStorageStrategy :=
  let db := if (s.db.lookup bucket).isNone then assocSet bucket [] s.db else s.db
  { s with db := db.map (fun kv => if kv.1 = bucket then (kv.1, kv.2 ++ [event]) else kv) }

end MemoryStorageStrategy

/-! ### aw_core/query.py -/

/-- Modelled from the spec (§2, §6): the Datastore handle (aw_datastore, not
under src/) delegates buckets() and per-bucket event reads to the single
storage strategy it was constructed with; here the in-memory strategy backs
it. -/
abbrev Datastore := MemoryStorageStrategy

/-- Modelled from the spec (§4.4): get(id, limit, start?, end?) — the
Datastore bucket read used by query.py; it delegates to the strategy's get and
optionally restricts to [start, end] (restriction by event timestamp). -/
def Datastore.dsGet (ds : Datastore) (bucket : String) (limit : Int)
    (start stop : Option Int) : List Event :=
  let evs := ds.get bucket limit
  let evs := match start with
    | none => evs
    | some s => evs.filter (fun e => s ≤ e.timestamp)
  match stop with
  | none => evs
  | some e => evs.filter (fun ev => ev.timestamp ≤ e)

/-- Whether a bucket id is a key of db — the key set of the dict that
ds.buckets() returns whenever it succeeds. -/
def Datastore.hasBucket (ds : Datastore) (bucket : String) : Prop :=
  bucket ∈ ds.db.map Prod.fst

instance (ds : Datastore) (b : String) : Decidable (ds.hasBucket b) :=
  inferInstanceAs (Decidable (b ∈ ds.db.map Prod.fst))

/-- The datastore states on which buckets() succeeds: every bucket log in db
has its metadata entry.  create_bucket maintains this; insert_one into an
unknown bucket id breaks it (see C9), and buckets() then raises KeyError. -/
def MetadataTotal (ds : Datastore) : Prop :=
  ∀ kv ∈ ds.db, (ds._metadata.lookup kv.1).isSome = true

instance (ds : Datastore) : Decidable (MetadataTotal ds) :=
  inferInstanceAs (Decidable (∀ kv ∈ ds.db, (ds._metadata.lookup kv.1).isSome = true))

/-- A value found in a query document dict: either a string or something of
another type (query.py only ever distinguishes the two via isinstance). -/
inductive DVal where
  | vstr (s : String)
  | vother
deriving DecidableEq, Repr

mutual
/-- A BucketTransform document: the optional "bucket" entry and the optional
"filters" entry.  The document grammar is one mutual inductive family (its
lists and optional entries included) so that the evaluator below is plain
structural recursion. -/
inductive BTransform where
  | mk (bucket : Option DVal) (filters : OptFilters)

/-- An optional "filters" entry: absent, or a list of filter documents. -/
inductive OptFilters where
  | none
  | some (fs : FilterList)

/-- A list of filter documents. -/
inductive FilterList where
  | nil
  | cons (f : VFilter) (fs : FilterList)

/-- A Filter document: the optional "name", "labels" and "transforms"
entries. -/
inductive VFilter where
  | mk (name : Option DVal) (labels : Option (List String))
      (transforms : OptTransforms)

/-- An optional "transforms" entry: absent, or a list of nested transform
documents. -/
inductive OptTransforms where
  | none
  | some (ts : TransformList)

/-- A list of transform documents. -/
inductive TransformList where
  | nil
  | cons (t : BTransform) (ts : TransformList)
end

/-- The "bucket" entry of a transform document. -/
def BTransform.bucketField : BTransform → Option DVal
  | .mk b _ => b

/-- The "filters" entry of a transform document. -/
def BTransform.filtersField : BTransform → OptFilters
  | .mk _ f => f

/-- The "name" entry of a filter document. -/
def VFilter.nameField : VFilter → Option DVal
  | .mk n _ _ => n

/-- The "labels" entry of a filter document. -/
def VFilter.labelsField : VFilter → Option (List String)
  | .mk _ l _ => l

/-- The "transforms" entry of a filter document. -/
def VFilter.transformsField : VFilter → OptTransforms
  | .mk _ _ t => t

/-- The transform documents of a TransformList, as an ordinary list. -/
def TransformList.toList : TransformList → List BTransform
  | .nil => []
  | .cons t ts => t :: ts.toList

/-- The query document consumed by query(): its "transforms" list and the
truthiness of its optional "chunk" entry. -/
structure QueryDoc where
  transforms : TransformList
  chunk : Bool

namespace Transforms

/-- Modelled from the spec (§4.3): aw_transform's include_labels (not under
src/) — keep only events whose data contains at least one label in the set. -/
def include_labels (events : List Event) (labels : List String) : List Event :=
  events.filter (fun e => e.data.any (fun lab => labels.contains lab))

/-- Modelled from the spec (§4.3): aw_transform's exclude_labels (not under
src/) — drop events whose data contains any label in the set. -/
def exclude_labels (events : List Event) (labels : List String) : List Event :=
  events.filter (fun e => ¬ e.data.any (fun lab => labels.contains lab))

end Transforms

/-- Modelled from the spec (§6): to_json_dict serializes an event losslessly
(timestamp, duration, data); the serialized form is represented by the event
itself. -/
def Event.to_json_dict (e : Event) : Event := e

/-- The result of query(): either the summary of the external chunk
collaborator (modelled from the spec (§4.3): chunking is out of scope, so the
event list handed to it is kept as a tag), or the
{"eventcount": _, "eventlist": _} dict. -/
inductive QueryResult where
  | chunked (events : List Event)
  | plain (eventcount : Nat) (eventlist : List Event)
deriving DecidableEq, Repr

/-- query.py: include_labels filter — [] when the "labels" key is absent. -/
def Query.include_labels (tfilter : VFilter) (events : List Event) (_ds : Datastore)
    (_limit : Int) (_start _stop : Option Int) : List Event :=
  match tfilter.labelsField with
  | none => []
  | some labels => Transforms.include_labels events labels

/-- query.py: exclude_labels filter — the events unchanged when the "labels"
key is absent. -/
def Query.exclude_labels (tfilter : VFilter) (events : List Event) (_ds : Datastore)
    (_limit : Int) (_start _stop : Option Int) : List Event :=
  match tfilter.labelsField with
  | none => events
  | some labels => Transforms.exclude_labels events labels

mutual

/-- query.py: bucket_transform — validate the "bucket" entry, read the
bucket's events, then pipe them through the declared filters in order. -/
def bucket_transform (btransform : BTransform) (ds : Datastore) (limit : Int)
    (start stop : Option Int) : Except QError (List Event) :=
  match btransform with
  | .mk bucket? filters? =>
    match bucket? with
    | none => .error (.queryException "No bucket specified in transform")
    | some .vother => .error (.queryException "Invalid bucket name in transform")
    | some (.vstr b) =>
      -- "btransform['bucket'] in ds.buckets()": ds.buckets() is evaluated
      -- here, and a KeyError it raises propagates past the membership check
      match MemoryStorageStrategy.buckets ds with
      | .error e => .error e
      | .ok bkts =>
        if b ∈ bkts.map Prod.fst then
          let events := ds.dsGet b limit start stop
          match filters? with
          | .none => .ok events
          | .some fs => apply_filters fs events ds limit start stop
        else
          .error (.queryException
            ("Cannot query bucket that does not exist in transform: " ++ b))

/-- query.py: the for loop over btransform["filters"] — validate each filter's
"name" entry and thread the current event list through the named filter. -/
def apply_filters (fs : FilterList) (events : List Event) (ds : Datastore)
    (limit : Int) (start stop : Option Int) : Except QError (List Event) :=
  match fs with
  | .nil => .ok events
  | .cons f rest => do
    let events' ← apply_filter f events ds limit start stop
    apply_filters rest events' ds limit start stop

/-- query.py: one iteration of the filter loop — the "name" checks followed by
the dispatch through the module-level filters table.  The body of the
timeperiod_intersect filter is inlined in its dispatch arm (it is the only
filter that recurses into nested transforms); Query.timeperiod_intersect
below restates it as the standalone function of query.py. -/
def apply_filter (f : VFilter) (events : List Event) (ds : Datastore)
    (limit : Int) (start stop : Option Int) : Except QError (List Event) :=
  match f with
  | .mk name? _ transforms? =>
    match name? with
    | none => .error (.queryException "No filter specified in transform")
    | some .vother => .error (.queryException "Invalid filter name in transform")
    | some (.vstr n) =>
      if n = "exclude_labels" then
        .ok (Query.exclude_labels f events ds limit start stop)
      else if n = "include_labels" then
        .ok (Query.include_labels f events ds limit start stop)
      else if n = "timeperiod_intersect" then
        match transforms? with
        | .none => .error (.keyError "transforms")
        | .some ts => do
          let filterevents ← eval_transform_list ts ds limit start stop
          .ok (filter_period_intersect events filterevents)
      else
        .error (.queryException ("No such filter in transform: " ++ n))

/-- query.py: the loop "for btransform in ...: filterevents/events +=
bucket_transform(...)" shared by timeperiod_intersect and query. -/
def eval_transform_list (ts : TransformList) (ds : Datastore) (limit : Int)
    (start stop : Option Int) : Except QError (List Event) :=
  match ts with
  | .nil => .ok []
  | .cons t rest => do
    let evs ← bucket_transform t ds limit start stop
    let more ← eval_transform_list rest ds limit start stop
    .ok (evs ++ more)

end

/-- query.py: timeperiod_intersect filter — evaluate every nested
BucketTransform of tfilter["transforms"] against the same datastore, limit,
start and end, concatenate the results, and clip the pipeline's events to
them with filter_period_intersect. -/
def Query.timeperiod_intersect (tfilter : VFilter) (events : List Event) (ds : Datastore)
    (limit : Int) (start stop : Option Int) : Except QError (List Event) :=
  match tfilter with
  | .mk _ _ .none => .error (.keyError "transforms")
  | .mk _ _ (.some ts) => do
    let filterevents ← eval_transform_list ts ds limit start stop
    .ok (filter_period_intersect events filterevents)

/-- query.py: query — concatenate the event lists of all top-level transforms,
then either chunk or emit {"eventcount", "eventlist"}. -/
def query (q : QueryDoc) (ds : Datastore) (limit : Int) (start stop : Option Int) :
    Except QError QueryResult := do
  let events ← eval_transform_list q.transforms ds limit start stop
  if q.chunk then
    .ok (.chunked events)
  else
    .ok (.plain events.length (events.map Event.to_json_dict))

/-! ### Helper lemmas about the interval algebra and the two-pointer sweep -/

/-- Timestamp comparison used to state ordering facts about event lists. -/
def tsLE (a b : Event) : Prop := a.timestamp ≤ b.timestamp

theorem intersection_eq_some {a b ip : TimePeriod}
    (h : a.intersection b = some ip) :
    ip.start = max a.start b.start ∧ ip.stop = min a.stop b.stop ∧
      max a.start b.start < min a.stop b.stop := by
  unfold TimePeriod.intersection at h
  by_cases hlt : max a.start b.start < min a.stop b.stop
  · simp only [hlt, if_pos] at h
    cases h
    exact ⟨rfl, rfl, hlt⟩
  · simp [hlt] at h

theorem intersection_eq_none {a b : TimePeriod}
    (h : a.intersection b = none) :
    min a.stop b.stop ≤ max a.start b.start := by
  unfold TimePeriod.intersection at h
  by_cases hlt : max a.start b.start < min a.stop b.stop
  · simp [hlt] at h
  · omega

theorem gap_intersection_none {a b : TimePeriod} (h : a.gap b) :
    a.intersection b = none := by
  unfold TimePeriod.gap at h
  unfold TimePeriod.intersection
  have hn : ¬ (max a.start b.start < min a.stop b.stop) := by
    rcases max_cases a.start b.start with ⟨h1, h2⟩ | ⟨h1, h2⟩ <;>
      rcases min_cases a.stop b.stop with ⟨h3, h4⟩ | ⟨h3, h4⟩ <;> omega
  simp [hn]

theorem intersecting_go_nil_of_gap :
    ∀ (fuel : Nat) (l1 l2 : List Event),
      (∀ e1 ∈ l1, ∀ e2 ∈ l2, (_get_event_period e1).gap (_get_event_period e2)) →
      _intersecting_eventpairs_go fuel l1 l2 = [] := by
  intro fuel
  induction fuel with
  | zero => intro l1 l2 _; cases l1 <;> cases l2 <;> rfl
  | succ n ih =>
    intro l1 l2 h
    cases l1 with
    | nil => rfl
    | cons e1 r1 =>
      cases l2 with
      | nil => rfl
      | cons e2 r2 =>
        have hg := h e1 (List.mem_cons_self _ _) e2 (List.mem_cons_self _ _)
        have hnone := gap_intersection_none hg
        simp only [_intersecting_eventpairs_go, hnone]
        have h1 : ∀ x1 ∈ r1, ∀ x2 ∈ e2 :: r2,
            (_get_event_period x1).gap (_get_event_period x2) :=
          fun x1 hx1 x2 hx2 => h x1 (List.mem_cons_of_mem _ hx1) x2 hx2
        have h2 : ∀ x1 ∈ e1 :: r1, ∀ x2 ∈ r2,
            (_get_event_period x1).gap (_get_event_period x2) :=
          fun x1 hx1 x2 hx2 => h x1 hx1 x2 (List.mem_cons_of_mem _ hx2)
        have h3 : ∀ x1 ∈ r1, ∀ x2 ∈ r2,
            (_get_event_period x1).gap (_get_event_period x2) :=
          fun x1 hx1 x2 hx2 => h1 x1 hx1 x2 (List.mem_cons_of_mem _ hx2)
        split <;> [exact ih _ _ h1; skip]
        split <;> [exact ih _ _ h2; exact ih _ _ h3]

theorem degenerate_go_zero :
    ∀ (fuel : Nat) (l1 l2 : List Event),
      (∀ e ∈ l1, 0 < e.duration) → (∀ e ∈ l2, 0 < e.duration) →
      _degenerate_steps_go fuel l1 l2 = 0 := by
  intro fuel
  induction fuel with
  | zero => intro l1 l2 _ _; cases l1 <;> cases l2 <;> rfl
  | succ n ih =>
    intro l1 l2 h1 h2
    cases l1 with
    | nil => rfl
    | cons e1 r1 =>
      cases l2 with
      | nil => rfl
      | cons e2 r2 =>
        have hd1 := h1 e1 (List.mem_cons_self _ _)
        have hd2 := h2 e2 (List.mem_cons_self _ _)
        have t1 : ∀ e ∈ r1, 0 < e.duration :=
          fun e he => h1 e (List.mem_cons_of_mem _ he)
        have t2 : ∀ e ∈ r2, 0 < e.duration :=
          fun e he => h2 e (List.mem_cons_of_mem _ he)
        cases hi : (_get_event_period e1).intersection (_get_event_period e2) with
        | some ip =>
          simp only [_degenerate_steps_go, hi]
          split
          · exact ih _ _ t1 h2
          · exact ih _ _ h1 t2
        | none =>
          have hno := intersection_eq_none hi
          simp only [_get_event_period] at hno
          simp only [_degenerate_steps_go, hi]
          split
          · exact ih _ _ t1 h2
          · split
            · exact ih _ _ h1 t2
            · -- the degenerate branch is impossible for positive durations
              exfalso
              rename_i hne1 hne2
              simp only [_get_event_period] at hne1 hne2
              rcases max_cases (e1.timestamp) (e2.timestamp) with ⟨hm1, hm2⟩ | ⟨hm1, hm2⟩ <;>
                rcases min_cases (e1.timestamp + e1.duration)
                  (e2.timestamp + e2.duration) with ⟨hn1, hn2⟩ | ⟨hn1, hn2⟩ <;>
                omega

theorem intersecting_go_nil_left (fuel : Nat) (l2 : List Event) :
    _intersecting_eventpairs_go fuel [] l2 = [] := by
  cases fuel <;> rfl

theorem intersecting_go_nil_right (fuel : Nat) (l1 : List Event) :
    _intersecting_eventpairs_go fuel l1 [] = [] := by
  cases fuel <;> cases l1 <;> rfl

theorem EventLE_ts {a b : Event} (h : EventLE a b) : a.timestamp ≤ b.timestamp := by
  unfold EventLE at h; omega

theorem sortEvents_ts_chain (l : List Event) : List.Chain' tsLE (sortEvents l) :=
  ((List.sorted_insertionSort EventLE l).chain').imp fun _ _ h => EventLE_ts h

/-- Every intersection period emitted by the sweep starts no earlier than both
current heads. -/
theorem intersecting_go_start_lb :
    ∀ (fuel : Nat) (e1 : Event) (r1 : List Event) (e2 : Event) (r2 : List Event)
      (x : Event × Event × TimePeriod),
      List.Chain' tsLE (e1 :: r1) → List.Chain' tsLE (e2 :: r2) →
      x ∈ _intersecting_eventpairs_go fuel (e1 :: r1) (e2 :: r2) →
      max e1.timestamp e2.timestamp ≤ x.2.2.start := by
  intro fuel
  induction fuel with
  | zero => intro e1 r1 e2 r2 x _ _ hx; simp [_intersecting_eventpairs_go] at hx
  | succ n ih =>
    intro e1 r1 e2 r2 x hc1 hc2 hx
    have hstep : ∀ (r1' : List Event), (∀ a ∈ r1'.head?, tsLE e1 a) →
        List.Chain' tsLE r1' →
        x ∈ _intersecting_eventpairs_go n r1' (e2 :: r2) →
        max e1.timestamp e2.timestamp ≤ x.2.2.start := by
      intro r1' hhd hch hmem
      cases r1' with
      | nil => rw [intersecting_go_nil_left] at hmem; cases hmem
      | cons a as =>
        have hts : e1.timestamp ≤ a.timestamp := hhd a rfl
        have := ih a as e2 r2 x hch hc2 hmem
        rcases max_cases a.timestamp e2.timestamp with ⟨hm1, hm2⟩ | ⟨hm1, hm2⟩ <;>
          rcases max_cases e1.timestamp e2.timestamp with ⟨hk1, hk2⟩ | ⟨hk1, hk2⟩ <;>
          omega
    have hstep2 : ∀ (r2' : List Event), (∀ a ∈ r2'.head?, tsLE e2 a) →
        List.Chain' tsLE r2' →
        x ∈ _intersecting_eventpairs_go n (e1 :: r1) r2' →
        max e1.timestamp e2.timestamp ≤ x.2.2.start := by
      intro r2' hhd hch hmem
      cases r2' with
      | nil => rw [intersecting_go_nil_right] at hmem; cases hmem
      | cons a as =>
        have hts : e2.timestamp ≤ a.timestamp := hhd a rfl
        have := ih e1 r1 a as x hc1 hch hmem
        rcases max_cases e1.timestamp a.timestamp with ⟨hm1, hm2⟩ | ⟨hm1, hm2⟩ <;>
          rcases max_cases e1.timestamp e2.timestamp with ⟨hk1, hk2⟩ | ⟨hk1, hk2⟩ <;>
          omega
    have hstep3 : List.Chain' tsLE r1 → List.Chain' tsLE r2 →
        x ∈ _intersecting_eventpairs_go n r1 r2 →
        max e1.timestamp e2.timestamp ≤ x.2.2.start := by
      intro hch1 hch2 hmem
      cases r1 with
      | nil => rw [intersecting_go_nil_left] at hmem; cases hmem
      | cons a as =>
        cases r2 with
        | nil => rw [intersecting_go_nil_right] at hmem; cases hmem
        | cons b bs =>
          have hts1 : e1.timestamp ≤ a.timestamp :=
            (List.chain'_cons'.mp hc1).1 a rfl
          have hts2 : e2.timestamp ≤ b.timestamp :=
            (List.chain'_cons'.mp hc2).1 b rfl
          have := ih a as b bs x hch1 hch2 hmem
          rcases max_cases a.timestamp b.timestamp with ⟨hm1, hm2⟩ | ⟨hm1, hm2⟩ <;>
            rcases max_cases e1.timestamp e2.timestamp with ⟨hk1, hk2⟩ | ⟨hk1, hk2⟩ <;>
            omega
    cases hi : (_get_event_period e1).intersection (_get_event_period e2) with
    | some ip =>
      simp only [_intersecting_eventpairs_go, hi, List.mem_cons] at hx
      rcases hx with hx | hx
      · subst hx
        have := (intersection_eq_some hi).1
        simp only [_get_event_period] at this
        simp [this]
      · rcases Decidable.em
          ((_get_event_period e1).stop ≤ (_get_event_period e2).stop) with hle | hle
        · rw [if_pos hle] at hx
          exact hstep r1 (List.chain'_cons'.mp hc1).1 hc1.tail hx
        · rw [if_neg hle] at hx
          exact hstep2 r2 (List.chain'_cons'.mp hc2).1 hc2.tail hx
    | none =>
      simp only [_intersecting_eventpairs_go, hi] at hx
      rcases Decidable.em
        ((_get_event_period e1).stop ≤ (_get_event_period e2).start) with ha | ha
      · rw [if_pos ha] at hx
        exact hstep r1 (List.chain'_cons'.mp hc1).1 hc1.tail hx
      · rw [if_neg ha] at hx
        rcases Decidable.em
          ((_get_event_period e2).stop ≤ (_get_event_period e1).start) with hb | hb
        · rw [if_pos hb] at hx
          exact hstep2 r2 (List.chain'_cons'.mp hc2).1 hc2.tail hx
        · rw [if_neg hb] at hx
          exact hstep3 hc1.tail hc2.tail hx

/-- The intersection periods emitted by the sweep have non-decreasing start
instants when both inputs have non-decreasing timestamps. -/
theorem intersecting_go_start_chain :
    ∀ (fuel : Nat) (l1 l2 : List Event),
      List.Chain' tsLE l1 → List.Chain' tsLE l2 →
      List.Chain' (fun u v : Event × Event × TimePeriod => u.2.2.start ≤ v.2.2.start)
        (_intersecting_eventpairs_go fuel l1 l2) := by
  intro fuel
  induction fuel with
  | zero => intro l1 l2 _ _; cases l1 <;> cases l2 <;> simp [_intersecting_eventpairs_go]
  | succ n ih =>
    intro l1 l2 hc1 hc2
    cases l1 with
    | nil => rw [intersecting_go_nil_left]; exact List.chain'_nil
    | cons e1 r1 =>
      cases l2 with
      | nil => rw [intersecting_go_nil_right]; exact List.chain'_nil
      | cons e2 r2 =>
        cases hi : (_get_event_period e1).intersection (_get_event_period e2) with
        | some ip =>
          have hip := (intersection_eq_some hi).1
          simp only [_get_event_period] at hip
          simp only [_intersecting_eventpairs_go, hi]
          rcases Decidable.em
            ((_get_event_period e1).stop ≤ (_get_event_period e2).stop) with hle | hle
          · rw [if_pos hle]
            cases r1 with
            | nil =>
              rw [intersecting_go_nil_left]
              simp
            | cons a as =>
              refine List.chain'_cons'.mpr ⟨?_, ih _ _ hc1.tail hc2⟩
              intro y hy
              have hym : y ∈ _intersecting_eventpairs_go n (a :: as) (e2 :: r2) :=
                List.mem_of_mem_head? hy
              have hys := intersecting_go_start_lb n a as e2 r2 y hc1.tail hc2 hym
              have hts : e1.timestamp ≤ a.timestamp := (List.chain'_cons'.mp hc1).1 a rfl
              rw [hip]
              rcases max_cases a.timestamp e2.timestamp with ⟨hm1, hm2⟩ | ⟨hm1, hm2⟩ <;>
                rcases max_cases e1.timestamp e2.timestamp with ⟨hk1, hk2⟩ | ⟨hk1, hk2⟩ <;>
                omega
          · rw [if_neg hle]
            cases r2 with
            | nil =>
              rw [intersecting_go_nil_right]
              simp
            | cons b bs =>
              refine List.chain'_cons'.mpr ⟨?_, ih _ _ hc1 hc2.tail⟩
              intro y hy
              have hym : y ∈ _intersecting_eventpairs_go n (e1 :: r1) (b :: bs) :=
                List.mem_of_mem_head? hy
              have hys := intersecting_go_start_lb n e1 r1 b bs y hc1 hc2.tail hym
              have hts : e2.timestamp ≤ b.timestamp := (List.chain'_cons'.mp hc2).1 b rfl
              rw [hip]
              rcases max_cases e1.timestamp b.timestamp with ⟨hm1, hm2⟩ | ⟨hm1, hm2⟩ <;>
                rcases max_cases e1.timestamp e2.timestamp with ⟨hk1, hk2⟩ | ⟨hk1, hk2⟩ <;>
                omega
        | none =>
          simp only [_intersecting_eventpairs_go, hi]
          rcases Decidable.em
            ((_get_event_period e1).stop ≤ (_get_event_period e2).start) with ha | ha
          · rw [if_pos ha]
            exact ih _ _ hc1.tail hc2
          · rw [if_neg ha]
            rcases Decidable.em
              ((_get_event_period e2).stop ≤ (_get_event_period e1).start) with hb | hb
            · rw [if_pos hb]
              exact ih _ _ hc1 hc2.tail
            · rw [if_neg hb]
              exact ih _ _ hc1.tail hc2.tail

/-- Output of filter_period_intersect has non-decreasing timestamps. -/
theorem filter_period_intersect_ts_chain (events filterevents : List Event) :
    List.Chain' tsLE (filter_period_intersect events filterevents) := by
  unfold filter_period_intersect _intersecting_eventpairs
  rw [List.chain'_map]
  exact (intersecting_go_start_chain _ _ _
    (sortEvents_ts_chain events) (sortEvents_ts_chain filterevents)).imp
    (fun u v h => h)

/-! ### Helper lemmas about period_union -/

theorem period_union_merged_fields (last e : Event) :
    (_replace_event_period last
        ((_get_event_period e).union (_get_event_period last))) =
      ⟨min e.timestamp last.timestamp,
        max (e.timestamp + e.duration) (last.timestamp + last.duration) -
          min e.timestamp last.timestamp,
        last.data⟩ := by
  simp [_replace_event_period, _get_event_period, TimePeriod.union, TimePeriod.duration]

/-- The first event period_union's fold emits keeps the accumulator's start
and data. -/
theorem period_union_go_head :
    ∀ (rest : List Event) (last : Event),
      (∀ x ∈ rest, last.timestamp ≤ x.timestamp) →
      ∃ h tl, period_union_go last rest = h :: tl ∧
        h.timestamp = last.timestamp ∧ h.data = last.data := by
  intro rest
  induction rest with
  | nil => intro last _; exact ⟨last, [], rfl, rfl, rfl⟩
  | cons e es ih =>
    intro last hTLB
    have hts : last.timestamp ≤ e.timestamp := hTLB e (List.mem_cons_self _ _)
    have hmin : min e.timestamp last.timestamp = last.timestamp := min_eq_right hts
    simp only [period_union_go]
    by_cases hg : (_get_event_period e).gap (_get_event_period last)
    · rw [if_neg (not_not_intro hg)]
      exact ⟨last, period_union_go e es, rfl, rfl, rfl⟩
    · rw [if_pos hg, period_union_merged_fields]
      obtain ⟨h, tl, heq, hh1, hh2⟩ := ih
        ⟨min e.timestamp last.timestamp,
          max (e.timestamp + e.duration) (last.timestamp + last.duration) -
            min e.timestamp last.timestamp, last.data⟩
        (by
          intro x hx
          show min e.timestamp last.timestamp ≤ x.timestamp
          rw [hmin]
          exact hTLB x (List.mem_cons_of_mem _ hx))
      refine ⟨h, tl, heq, ?_, ?_⟩
      · rw [hh1]; exact hmin
      · exact hh2

/-- Every event period_union's fold emits either keeps the accumulator's
start and data, or starts strictly after the accumulator's period ends. -/
theorem period_union_go_mem :
    ∀ (rest : List Event) (last o : Event),
      (∀ x ∈ rest, last.timestamp ≤ x.timestamp) →
      List.Pairwise tsLE rest →
      0 ≤ last.duration →
      (∀ x ∈ rest, 0 ≤ x.duration) →
      o ∈ period_union_go last rest →
      (o.timestamp = last.timestamp ∧ o.data = last.data) ∨
        (last.timestamp + last.duration < o.timestamp) := by
  intro rest
  induction rest with
  | nil =>
    intro last o _ _ _ _ ho
    simp only [period_union_go, List.mem_singleton] at ho
    subst ho
    exact Or.inl ⟨rfl, rfl⟩
  | cons e es ih =>
    intro last o hTLB hPW hld hDN ho
    have hts : last.timestamp ≤ e.timestamp := hTLB e (List.mem_cons_self _ _)
    have hde : 0 ≤ e.duration := hDN e (List.mem_cons_self _ _)
    have hmin : min e.timestamp last.timestamp = last.timestamp := min_eq_right hts
    simp only [period_union_go] at ho
    by_cases hg : (_get_event_period e).gap (_get_event_period last)
    · rw [if_neg (not_not_intro hg)] at ho
      -- appended: last is final; the rest comes from the fold restarted at e
      have hgap : last.timestamp + last.duration < e.timestamp := by
        unfold TimePeriod.gap _get_event_period at hg
        simp only at hg
        omega
      rcases List.mem_cons.mp ho with ho | ho
      · subst ho; exact Or.inl ⟨rfl, rfl⟩
      · have := ih e o (fun x hx => (List.pairwise_cons.mp hPW).1 x hx)
          (List.pairwise_cons.mp hPW).2 hde
          (fun x hx => hDN x (List.mem_cons_of_mem _ hx)) ho
        rcases this with ⟨h1, _⟩ | h1
        · omega
        · omega
    · rw [if_pos hg, period_union_merged_fields] at ho
      have := ih
        ⟨min e.timestamp last.timestamp,
          max (e.timestamp + e.duration) (last.timestamp + last.duration) -
            min e.timestamp last.timestamp, last.data⟩ o
        (by
          intro x hx
          show min e.timestamp last.timestamp ≤ x.timestamp
          rw [hmin]
          exact hTLB x (List.mem_cons_of_mem _ hx))
        (List.pairwise_cons.mp hPW).2
        (by
          show (0 : Int) ≤ max (e.timestamp + e.duration)
            (last.timestamp + last.duration) - min e.timestamp last.timestamp
          rcases max_cases (e.timestamp + e.duration)
            (last.timestamp + last.duration) with ⟨h1, h2⟩ | ⟨h1, h2⟩ <;> omega)
        (fun x hx => hDN x (List.mem_cons_of_mem _ hx)) ho
      rcases this with ⟨h1, h2⟩ | h1
      · exact Or.inl ⟨by rw [h1]; exact hmin, h2⟩
      · refine Or.inr ?_
        simp only at h1
        rcases max_cases (e.timestamp + e.duration)
          (last.timestamp + last.duration) with ⟨hm1, hm2⟩ | ⟨hm1, hm2⟩ <;> omega

/-- The fold of period_union produces segments that are separated by strict
gaps and strictly increasing in start instant. -/
theorem period_union_go_chain :
    ∀ (rest : List Event) (last : Event),
      (∀ x ∈ rest, last.timestamp ≤ x.timestamp) →
      List.Pairwise tsLE rest →
      0 ≤ last.duration →
      (∀ x ∈ rest, 0 ≤ x.duration) →
      List.Chain'
        (fun p q => p.timestamp + p.duration < q.timestamp ∧ p.timestamp < q.timestamp)
        (period_union_go last rest) := by
  intro rest
  induction rest with
  | nil =>
    intro last _ _ _ _
    simp [period_union_go]
  | cons e es ih =>
    intro last hTLB hPW hld hDN
    have hts : last.timestamp ≤ e.timestamp := hTLB e (List.mem_cons_self _ _)
    have hde : 0 ≤ e.duration := hDN e (List.mem_cons_self _ _)
    have hmin : min e.timestamp last.timestamp = last.timestamp := min_eq_right hts
    simp only [period_union_go]
    by_cases hg : (_get_event_period e).gap (_get_event_period last)
    · rw [if_neg (not_not_intro hg)]
      have hgap : last.timestamp + last.duration < e.timestamp := by
        unfold TimePeriod.gap _get_event_period at hg
        simp only at hg
        omega
      have htail := ih e (fun x hx => (List.pairwise_cons.mp hPW).1 x hx)
        (List.pairwise_cons.mp hPW).2 hde
        (fun x hx => hDN x (List.mem_cons_of_mem _ hx))
      refine List.chain'_cons'.mpr ⟨?_, htail⟩
      intro y hy
      obtain ⟨h, tl, heq, hh1, _⟩ := period_union_go_head es e
        (fun x hx => (List.pairwise_cons.mp hPW).1 x hx)
      rw [heq] at hy
      simp only [List.head?_cons, Option.mem_def, Option.some.injEq] at hy
      subst hy
      constructor <;> omega
    · rw [if_pos hg, period_union_merged_fields]
      exact ih _
        (by
          intro x hx
          show min e.timestamp last.timestamp ≤ x.timestamp
          rw [hmin]
          exact hTLB x (List.mem_cons_of_mem _ hx))
        (List.pairwise_cons.mp hPW).2
        (by
          show (0 : Int) ≤ max (e.timestamp + e.duration)
            (last.timestamp + last.duration) - min e.timestamp last.timestamp
          rcases max_cases (e.timestamp + e.duration)
            (last.timestamp + last.duration) with ⟨h1, h2⟩ | ⟨h1, h2⟩ <;> omega)
        (fun x hx => hDN x (List.mem_cons_of_mem _ hx))

/-- Each event period_union's fold emits carries the data of the first event,
in sorted order, whose timestamp equals the emitted start. -/
theorem period_union_go_find :
    ∀ (rest : List Event) (last o : Event),
      (∀ x ∈ rest, last.timestamp ≤ x.timestamp) →
      List.Pairwise tsLE rest →
      0 ≤ last.duration →
      (∀ x ∈ rest, 0 ≤ x.duration) →
      o ∈ period_union_go last rest →
      ∃ w, (last :: rest).find? (fun ev => ev.timestamp == o.timestamp) = some w ∧
        w.data = o.data := by
  intro rest
  induction rest with
  | nil =>
    intro last o _ _ _ _ ho
    simp only [period_union_go, List.mem_singleton] at ho
    exact ⟨last, List.find?_cons_of_pos _ (by simp [ho]), by rw [ho]⟩
  | cons e es ih =>
    intro last o hTLB hPW hld hDN ho
    have hts : last.timestamp ≤ e.timestamp := hTLB e (List.mem_cons_self _ _)
    have hde : 0 ≤ e.duration := hDN e (List.mem_cons_self _ _)
    have hmin : min e.timestamp last.timestamp = last.timestamp := min_eq_right hts
    simp only [period_union_go] at ho
    by_cases hg : (_get_event_period e).gap (_get_event_period last)
    · rw [if_neg (not_not_intro hg)] at ho
      have hgap : last.timestamp + last.duration < e.timestamp := by
        unfold TimePeriod.gap _get_event_period at hg
        simp only at hg
        omega
      rcases List.mem_cons.mp ho with ho | ho
      · exact ⟨last, List.find?_cons_of_pos _ (by simp [ho]), by rw [ho]⟩
      · have hTLBe : ∀ x ∈ es, e.timestamp ≤ x.timestamp :=
          fun x hx => (List.pairwise_cons.mp hPW).1 x hx
        have hPWe := (List.pairwise_cons.mp hPW).2
        have hDNe : ∀ x ∈ es, 0 ≤ x.duration :=
          fun x hx => hDN x (List.mem_cons_of_mem _ hx)
        obtain ⟨w, hw, hwd⟩ := ih e o hTLBe hPWe hde hDNe ho
        have hot : e.timestamp ≤ o.timestamp := by
          rcases period_union_go_mem es e o hTLBe hPWe hde hDNe ho with ⟨h1, _⟩ | h1 <;>
            omega
        refine ⟨w, ?_, hwd⟩
        rw [List.find?_cons_of_neg]
        · exact hw
        · simp only [beq_iff_eq]
          omega
    · rw [if_pos hg, period_union_merged_fields] at ho
      have hTLBm : ∀ x ∈ es,
          (⟨min e.timestamp last.timestamp,
            max (e.timestamp + e.duration) (last.timestamp + last.duration) -
              min e.timestamp last.timestamp, last.data⟩ : Event).timestamp ≤
            x.timestamp := by
        intro x hx
        show min e.timestamp last.timestamp ≤ x.timestamp
        rw [hmin]
        exact hTLB x (List.mem_cons_of_mem _ hx)
      have hPWe := (List.pairwise_cons.mp hPW).2
      have hDNe : ∀ x ∈ es, 0 ≤ x.duration :=
        fun x hx => hDN x (List.mem_cons_of_mem _ hx)
      have hldm : (0 : Int) ≤ max (e.timestamp + e.duration)
          (last.timestamp + last.duration) - min e.timestamp last.timestamp := by
        rcases max_cases (e.timestamp + e.duration)
          (last.timestamp + last.duration) with ⟨h1, h2⟩ | ⟨h1, h2⟩ <;> omega
      obtain ⟨w, hw, hwd⟩ := ih _ o hTLBm hPWe hldm hDNe ho
      by_cases hpt : o.timestamp = last.timestamp
      · refine ⟨last, List.find?_cons_of_pos _ (by simp [hpt]), ?_⟩
        rw [List.find?_cons_of_pos _ (by simp [hmin, hpt])] at hw
        cases hw
        exact hwd
      · have hml : o.timestamp ≠ min e.timestamp last.timestamp := by
          rw [hmin]; exact hpt
        have hstrict := period_union_go_mem es _ o hTLBm hPWe hldm hDNe ho
        have hoe : e.timestamp < o.timestamp := by
          rcases hstrict with ⟨h1, _⟩ | h1
          · exact absurd h1 hml
          · simp only at h1
            rcases max_cases (e.timestamp + e.duration)
              (last.timestamp + last.duration) with ⟨hm1, hm2⟩ | ⟨hm1, hm2⟩ <;> omega
        rw [List.find?_cons_of_neg _ (by simp [hmin]; omega)] at hw
        refine ⟨w, ?_, hwd⟩
        rw [List.find?_cons_of_neg _ (by simp; omega),
          List.find?_cons_of_neg _ (by simp; omega)]
        exact hw

/-- period_union output: consecutive events are gap-separated and strictly
increasing in start (valid events: non-negative durations). -/
theorem period_union_chain (l1 l2 : List Event)
    (h : ∀ x ∈ l1 ++ l2, 0 ≤ x.duration) :
    List.Chain'
      (fun p q => p.timestamp + p.duration < q.timestamp ∧ p.timestamp < q.timestamp)
      (period_union l1 l2) := by
  unfold period_union
  cases hs : sortEvents (l1 ++ l2) with
  | nil => exact List.chain'_nil
  | cons e0 rest =>
    have hsorted : List.Sorted EventLE (e0 :: rest) := by
      rw [← hs]; exact List.sorted_insertionSort EventLE _
    have hmem : ∀ x ∈ e0 :: rest, 0 ≤ x.duration := by
      intro x hx
      apply h
      have hx' : x ∈ sortEvents (l1 ++ l2) := by rw [hs]; exact hx
      exact (List.mem_insertionSort EventLE).mp hx'
    exact period_union_go_chain rest e0
      (fun x hx => EventLE_ts ((List.pairwise_cons.mp hsorted).1 x hx))
      (((List.pairwise_cons.mp hsorted).2).imp fun hab => EventLE_ts hab)
      (hmem e0 (List.mem_cons_self _ _))
      (fun x hx => hmem x (List.mem_cons_of_mem _ hx))

/-- period_union output: every emitted event carries the data of the first
event, in (timestamp, duration)-sorted order, whose timestamp equals the
emitted start instant. -/
theorem period_union_find (l1 l2 : List Event) (o : Event)
    (h : ∀ x ∈ l1 ++ l2, 0 ≤ x.duration)
    (ho : o ∈ period_union l1 l2) :
    ∃ w, (sortEvents (l1 ++ l2)).find? (fun ev => ev.timestamp == o.timestamp) =
        some w ∧ w.data = o.data ∧ w.timestamp = o.timestamp := by
  unfold period_union at ho
  cases hs : sortEvents (l1 ++ l2) with
  | nil => rw [hs] at ho; cases ho
  | cons e0 rest =>
    rw [hs] at ho
    have hsorted : List.Sorted EventLE (e0 :: rest) := by
      rw [← hs]; exact List.sorted_insertionSort EventLE _
    have hmem : ∀ x ∈ e0 :: rest, 0 ≤ x.duration := by
      intro x hx
      apply h
      have hx' : x ∈ sortEvents (l1 ++ l2) := by rw [hs]; exact hx
      exact (List.mem_insertionSort EventLE).mp hx'
    obtain ⟨w, hw, hwd⟩ := period_union_go_find rest e0 o
      (fun x hx => EventLE_ts ((List.pairwise_cons.mp hsorted).1 x hx))
      (((List.pairwise_cons.mp hsorted).2).imp fun hab => EventLE_ts hab)
      (hmem e0 (List.mem_cons_self _ _))
      (fun x hx => hmem x (List.mem_cons_of_mem _ hx)) ho
    refine ⟨w, hw, hwd, ?_⟩
    have := List.find?_some hw
    simpa [beq_iff_eq] using this

/-! ### Helper lemmas about the memory storage strategy and the evaluator -/

theorem pySliceFrom_singleton {α : Type} (a : α) (k : Int) (hk : 0 ≤ k) :
    pySliceFrom [a] (-k) = [a] := by
  unfold pySliceFrom
  split
  · have h0 : (-k).toNat = 0 := by omega
    rw [h0]
    rfl
  · rename_i hneg
    have h1 : (-(-k)).toNat = k.toNat := by simp
    have h2 : [a].length - (-(-k)).toNat = 0 := by
      simp only [List.length_singleton, h1]
      omega
    rw [h2]
    rfl

theorem lookup_insert_one_fresh :
    ∀ (l : List (String × List Event)) (b : String) (e : Event),
      l.lookup b = none →
      ((assocSet b ([] : List Event) l).map
        (fun kv => if kv.1 = b then (kv.1, kv.2 ++ [e]) else kv)).lookup b =
        some [e] := by
  intro l
  induction l with
  | nil =>
    intro b e _
    show List.lookup b
      [if (b, ([] : List Event)).1 = b then
        ((b, ([] : List Event)).1, (b, ([] : List Event)).2 ++ [e])
      else (b, ([] : List Event))] = some [e]
    rw [if_pos rfl]
    simp [List.lookup_cons]
  | cons kv rest ih =>
    intro b e hl
    obtain ⟨k, v⟩ := kv
    have hb : ¬ b = k := by
      intro hcontra
      subst hcontra
      simp [List.lookup_cons] at hl
    have hrest : rest.lookup b = none := by
      rw [List.lookup_cons, beq_false_of_ne hb] at hl
      exact hl
    have hkv : ¬ k = b := fun hcontra => hb hcontra.symm
    simp only [assocSet, if_neg hkv, List.map_cons]
    rw [List.lookup_cons, beq_false_of_ne hb]
    exact ih b e hrest

theorem bucketsGo_ok_keys :
    ∀ (s : MemoryStorageStrategy) (l : List (String × List Event))
      (bkts : List (String × BucketMetadata)),
      MemoryStorageStrategy.bucketsGo s l = .ok bkts →
      bkts.map Prod.fst = l.map Prod.fst := by
  intro s l
  induction l with
  | nil =>
    intro bkts hok
    simp only [MemoryStorageStrategy.bucketsGo] at hok
    cases hok
    rfl
  | cons kv rest ih =>
    intro bkts hok
    simp only [MemoryStorageStrategy.bucketsGo, Bind.bind, Except.bind] at hok
    cases hm : MemoryStorageStrategy.get_metadata s kv.1 with
    | error e => rw [hm] at hok; cases hok
    | ok m =>
      rw [hm] at hok
      cases hrest : MemoryStorageStrategy.bucketsGo s rest with
      | error e => rw [hrest] at hok; cases hok
      | ok more =>
        rw [hrest] at hok
        cases hok
        simp [ih more hrest]

theorem buckets_ok_of_total (ds : Datastore) (htot : MetadataTotal ds) :
    ∃ bkts, MemoryStorageStrategy.buckets ds = .ok bkts ∧
      bkts.map Prod.fst = ds.db.map Prod.fst := by
  unfold MemoryStorageStrategy.buckets
  suffices h : ∀ (l : List (String × List Event)),
      (∀ kv ∈ l, (ds._metadata.lookup kv.1).isSome = true) →
      ∃ bkts, MemoryStorageStrategy.bucketsGo ds l = .ok bkts ∧
        bkts.map Prod.fst = l.map Prod.fst from h ds.db htot
  intro l
  induction l with
  | nil => intro _; exact ⟨[], rfl, rfl⟩
  | cons kv rest ih =>
    intro h
    obtain ⟨m, hm⟩ := Option.isSome_iff_exists.mp (h kv (List.mem_cons_self _ _))
    obtain ⟨more, hmore, hkeys⟩ := ih (fun x hx => h x (List.mem_cons_of_mem _ hx))
    refine ⟨(kv.1, m) :: more, ?_, by simp [hkeys]⟩
    simp [MemoryStorageStrategy.bucketsGo, MemoryStorageStrategy.get_metadata,
      hm, hmore, Bind.bind, Except.bind]

theorem bucket_transform_missing_bucket (t : BTransform) (ds : Datastore)
    (limit : Int) (start stop : Option Int) (b : String)
    (htot : MetadataTotal ds)
    (hb : t.bucketField = some (.vstr b)) (hmiss : ¬ ds.hasBucket b) :
    bucket_transform t ds limit start stop =
      .error (.queryException
        ("Cannot query bucket that does not exist in transform: " ++ b)) := by
  cases t with
  | mk bucket? filters? =>
    simp only [BTransform.bucketField] at hb
    subst hb
    obtain ⟨bkts, hok, hkeys⟩ := buckets_ok_of_total ds htot
    have hmiss' : ¬ b ∈ bkts.map Prod.fst := by
      rw [hkeys]; exact hmiss
    rw [bucket_transform, hok]
    exact if_neg hmiss'

theorem bucket_transform_ok_hasBucket (t : BTransform) (ds : Datastore)
    (limit : Int) (start stop : Option Int) (b : String) (evs : List Event)
    (hb : t.bucketField = some (.vstr b))
    (hok : bucket_transform t ds limit start stop = .ok evs) :
    ds.hasBucket b := by
  cases t with
  | mk bucket? filters? =>
    simp only [BTransform.bucketField] at hb
    subst hb
    rw [bucket_transform] at hok
    split at hok
    · cases hok
    · rename_i bkts hbk
      split at hok
      · rename_i hmem
        have hkeys := bucketsGo_ok_keys ds ds.db bkts hbk
        unfold Datastore.hasBucket
        rw [← hkeys]
        exact hmem
      · cases hok

theorem eval_transform_list_error :
    ∀ (ts : TransformList) (ds : Datastore) (limit : Int)
      (start stop : Option Int) (t : BTransform) (b : String),
      t ∈ ts.toList → t.bucketField = some (.vstr b) → ¬ ds.hasBucket b →
      ∃ err, eval_transform_list ts ds limit start stop = .error err
  | .nil => by
    intro ds limit start stop t b hmem _ _
    simp [TransformList.toList] at hmem
  | .cons u rest => by
    intro ds limit start stop t b hmem hb hmiss
    have ih := eval_transform_list_error rest ds limit start stop t b
    cases hbt : bucket_transform u ds limit start stop with
    | error e =>
      refine ⟨e, ?_⟩
      simp [eval_transform_list, hbt, Bind.bind, Except.bind]
    | ok evs =>
      simp only [TransformList.toList, List.mem_cons] at hmem
      rcases hmem with rfl | hmem'
      · exact absurd
          (bucket_transform_ok_hasBucket t ds limit start stop b evs hb hbt) hmiss
      · obtain ⟨err, herr⟩ := ih hmem' hb hmiss
        refine ⟨err, ?_⟩
        simp [eval_transform_list, hbt, herr, Bind.bind, Except.bind]

theorem query_error_of_missing_bucket (q : QueryDoc) (ds : Datastore)
    (limit : Int) (start stop : Option Int) (t : BTransform) (b : String)
    (hmem : t ∈ q.transforms.toList) (hb : t.bucketField = some (.vstr b))
    (hmiss : ¬ ds.hasBucket b) :
    ∃ err, query q ds limit start stop = .error err := by
  obtain ⟨err, herr⟩ :=
    eval_transform_list_error q.transforms ds limit start stop t b hmem hb hmiss
  refine ⟨err, ?_⟩
  simp [query, herr, Bind.bind, Except.bind]

/-! ### Claim theorems -/

/-- C1: filter_period_intersect clips each event of the first list to its
overlap with the second list, retaining the first event's data payload: on
events1 = [(t=0,d=10,data=[a])] and filterevents = [(t=5,d=10,data=[b])] it
returns exactly [(t=5,d=5,data=[a])], and on any two lists whose periods are
pairwise non-overlapping and non-touching it returns the empty list. -/
theorem C1_filter_period_intersect_clips :
    filter_period_intersect [⟨0, 10, ["a"]⟩] [⟨5, 10, ["b"]⟩] = [⟨5, 5, ["a"]⟩] ∧
    ∀ (events filterevents : List Event),
      (∀ e1 ∈ events, ∀ e2 ∈ filterevents,
        (_get_event_period e1).gap (_get_event_period e2)) →
      filter_period_intersect events filterevents = [] := by
  refine ⟨by decide, ?_⟩
  intro l1 l2 h
  have hnil := intersecting_go_nil_of_gap
    ((sortEvents l1).length + (sortEvents l2).length) (sortEvents l1) (sortEvents l2)
    (fun e1 he1 e2 he2 =>
      h e1 ((List.mem_insertionSort EventLE).mp he1)
        e2 ((List.mem_insertionSort EventLE).mp he2))
  simp only [filter_period_intersect, _intersecting_eventpairs, hnil, List.map_nil]

/-- Witness for C1: the disjoint-input part applied to the concrete
non-overlapping, non-touching lists [(0,1)] and [(5,1)]. -/
theorem C1_filter_period_intersect_clips_witness :
    filter_period_intersect [⟨0, 1, ["a"]⟩] [⟨5, 1, ["b"]⟩] = [] :=
  C1_filter_period_intersect_clips.2 [⟨0, 1, ["a"]⟩] [⟨5, 1, ["b"]⟩] (by decide)

/-- C2: the timeperiod_intersect filter evaluates each nested BucketTransform
against the same datastore, limit, start and end, concatenates their results,
and applies filter_period_intersect to the pipeline's current events; in
particular, for bucket A holding [(0,10,label=x)] and bucket B holding
[(2,3)], a query with one transform on A carrying
timeperiod_intersect{transforms:[{bucket:B}]} yields the single event (2,3)
with A's data payload. -/
theorem C2_timeperiod_intersect_recursive :
    query
      ⟨.cons
        (.mk (some (.vstr "A"))
          (.some (.cons
            (.mk (some (.vstr "timeperiod_intersect")) none
              (.some (.cons (.mk (some (.vstr "B")) .none) .nil)))
            .nil)))
        .nil, false⟩
      ((((MemoryStorageStrategy.init.create_bucket "A" "window" "client" "host" 0
            none).create_bucket "B" "afk" "client" "host" 0 none).insert_one
          "A" ⟨0, 10, ["x"]⟩).insert_one "B" ⟨2, 3, []⟩)
      0 none none = .ok (.plain 1 [⟨2, 3, ["x"]⟩]) ∧
    ∀ (name : Option DVal) (labels : Option (List String)) (ts : TransformList)
      (events : List Event) (ds : Datastore) (limit : Int) (start stop : Option Int),
      Query.timeperiod_intersect (.mk name labels (.some ts)) events ds limit start stop =
        (eval_transform_list ts ds limit start stop).map
          (fun filterevents => filter_period_intersect events filterevents) := by
  constructor
  · rfl
  · intro name labels ts events ds limit start stop
    cases h : eval_transform_list ts ds limit start stop <;>
      simp [Query.timeperiod_intersect, h, Except.map, Bind.bind, Except.bind]

/-- C3: evaluation of the code at the failing input — for the in-memory
backend, a bucket holding one event read with limit = -1 comes back empty
(db[bucket][-(-1):] = db[bucket][1:] drops the oldest event), while the same
read with limit = 0 returns all events: a negative limit is not "unbounded". -/
theorem C3_negative_limit_drops_oldest :
    ((MemoryStorageStrategy.init.create_bucket "b" "type" "client" "host" 0
        none).insert_one "b" ⟨0, 1, []⟩).get "b" (-1) = [] ∧
    ((MemoryStorageStrategy.init.create_bucket "b" "type" "client" "host" 0
        none).insert_one "b" ⟨0, 1, []⟩).get "b" 0 = [⟨0, 1, []⟩] := by
  constructor <;> rfl

/-- C4 counterexample: on the sorted singleton inputs [(0,10)] and the legal
zero-duration event [(5,0)], the sweep reaches the "Should be unreachable"
branch exactly once, so the branch is reachable under the sort invariant. -/
theorem C4_degenerate_counterexample :
    degenerate_steps [⟨0, 10, []⟩] [⟨5, 0, []⟩] = 1 ∧
    List.Sorted EventLE [⟨0, 10, []⟩] ∧ List.Sorted EventLE [⟨5, 0, []⟩] :=
  ⟨by decide, List.sorted_singleton _, List.sorted_singleton _⟩

/-- C4 (amended): for sorted inputs all of whose events have positive
duration, the two-pointer sweep never reaches the degenerate branch; with
zero-duration events (legal inputs) the branch is reachable. -/
theorem C4_degenerate_unreachable :
    ∀ (events1 events2 : List Event),
      List.Sorted EventLE events1 → List.Sorted EventLE events2 →
      (∀ e ∈ events1, 0 < e.duration) → (∀ e ∈ events2, 0 < e.duration) →
      degenerate_steps events1 events2 = 0 :=
  fun l1 l2 _ _ h1 h2 => degenerate_go_zero (l1.length + l2.length) l1 l2 h1 h2

/-- Witness for the amended C4 at sorted, positive-duration inputs. -/
theorem C4_degenerate_unreachable_witness :
    degenerate_steps [⟨0, 10, []⟩] [⟨5, 1, []⟩] = 0 :=
  C4_degenerate_unreachable [⟨0, 10, []⟩] [⟨5, 1, []⟩]
    (List.sorted_singleton _) (List.sorted_singleton _) (by decide) (by decide)

/-- C5 counterexample: on inputs [(0,10),(1,4)] and [(3,7)] (valid events,
already sorted), filter_period_intersect outputs [(3,7),(3,2)], whose
consecutive elements are not non-decreasing by (timestamp, duration). -/
theorem C5_sortedness_counterexample :
    filter_period_intersect [⟨0, 10, []⟩, ⟨1, 4, []⟩] [⟨3, 7, []⟩] =
      [⟨3, 7, []⟩, ⟨3, 2, []⟩] ∧
    ¬ EventLE ⟨3, 7, []⟩ ⟨3, 2, []⟩ :=
  ⟨by decide, by decide⟩

/-- C5 (amended): for valid inputs (non-negative durations) period_union's
output is strictly increasing by (timestamp, duration); the output of
filter_period_intersect is only non-decreasing by timestamp — at equal
timestamps the durations can decrease. -/
theorem C5_sortedness :
    ∀ (events1 events2 : List Event),
      ((∀ e ∈ events1 ++ events2, 0 ≤ e.duration) →
        List.Chain' EventLT (period_union events1 events2)) ∧
      List.Chain' (fun a b => a.timestamp ≤ b.timestamp)
        (filter_period_intersect events1 events2) := by
  intro l1 l2
  constructor
  · intro h
    exact (period_union_chain l1 l2 h).imp fun a b hp => Or.inl hp.2
  · exact filter_period_intersect_ts_chain l1 l2

/-- Witness for the amended C5 at valid concrete inputs. -/
theorem C5_sortedness_witness :
    List.Chain' EventLT (period_union [⟨0, 5, ["a"]⟩] [⟨4, 5, ["b"]⟩]) :=
  (C5_sortedness [⟨0, 5, ["a"]⟩] [⟨4, 5, ["b"]⟩]).1 (by decide)

/-- C6: period_union coalesces touching or overlapping periods and keeps
gap-separated periods distinct: on [(0,5)] and [(4,5)] it returns the single
event (0,9); on [(0,1)] and [(5,1)] it returns the two events unmerged; and in
general (valid events: non-negative durations) consecutive output events are
ascending, non-overlapping and gap-separated. -/
theorem C6_period_union_coalesce :
    period_union [⟨0, 5, ["a"]⟩] [⟨4, 5, ["b"]⟩] = [⟨0, 9, ["a"]⟩] ∧
    period_union [⟨0, 1, ["a"]⟩] [⟨5, 1, ["b"]⟩] = [⟨0, 1, ["a"]⟩, ⟨5, 1, ["b"]⟩] ∧
    ∀ (events1 events2 : List Event),
      (∀ e ∈ events1 ++ events2, 0 ≤ e.duration) →
      List.Chain' (fun p q => p.timestamp + p.duration < q.timestamp)
        (period_union events1 events2) := by
  refine ⟨by decide, by decide, ?_⟩
  intro l1 l2 h
  exact (period_union_chain l1 l2 h).imp fun a b hp => hp.1

/-- Witness for C6's general part at valid concrete inputs. -/
theorem C6_period_union_coalesce_witness :
    List.Chain' (fun p q => p.timestamp + p.duration < q.timestamp)
      (period_union [⟨0, 1, ["a"]⟩] [⟨5, 1, ["b"]⟩]) :=
  C6_period_union_coalesce.2.2 [⟨0, 1, ["a"]⟩] [⟨5, 1, ["b"]⟩] (by decide)

/-- C7 counterexample: in the reachable datastore state that insert_one into a
never-created bucket produces (an event log for "x" with no metadata entry,
see C9), a query naming the nonexistent bucket "missing" does not raise the
query-validation exception: the membership check evaluates ds.buckets(),
whose get_metadata call raises KeyError for the log without metadata, and that
KeyError is what aborts the query. -/
theorem C7_keyerror_counterexample :
    ¬ Datastore.hasBucket
        (MemoryStorageStrategy.init.insert_one "x" ⟨0, 1, []⟩) "missing" ∧
    bucket_transform (.mk (some (.vstr "missing")) .none)
        (MemoryStorageStrategy.init.insert_one "x" ⟨0, 1, []⟩) 0 none none =
      .error (.keyError "x") ∧
    query ⟨.cons (.mk (some (.vstr "missing")) .none) .nil, false⟩
        (MemoryStorageStrategy.init.insert_one "x" ⟨0, 1, []⟩) 0 none none =
      .error (.keyError "x") :=
  ⟨by decide, rfl, rfl⟩

/-- C7 (amended): for every query document in which some transform names a
bucket that does not exist in the datastore, evaluation returns an error and
no eventlist at all is produced, regardless of the other transforms; and
whenever every bucket log of the datastore has its metadata entry (the states
create_bucket produces), the offending transform raises the query-validation
exception.  In a store holding an auto-created log without metadata (see C9)
the membership check's ds.buckets() call raises KeyError instead. -/
theorem C7_query_fail_fast :
    ∀ (q : QueryDoc) (ds : Datastore) (limit : Int) (start stop : Option Int)
      (t : BTransform) (b : String),
      t ∈ q.transforms.toList → t.bucketField = some (.vstr b) → ¬ ds.hasBucket b →
      (∃ err, query q ds limit start stop = .error err) ∧
      (MetadataTotal ds →
        bucket_transform t ds limit start stop =
          .error (.queryException
            ("Cannot query bucket that does not exist in transform: " ++ b))) :=
  fun q ds limit start stop t b hmem hb hmiss =>
    ⟨query_error_of_missing_bucket q ds limit start stop t b hmem hb hmiss,
      fun htot => bucket_transform_missing_bucket t ds limit start stop b htot hb hmiss⟩

/-- Witness for C7: a one-transform query naming the nonexistent bucket
"missing" on the empty datastore, whose (vacuously total) metadata makes the
offending transform raise the query-validation exception. -/
theorem C7_query_fail_fast_witness :
    (∃ err, query ⟨.cons (.mk (some (.vstr "missing")) .none) .nil, false⟩
        MemoryStorageStrategy.init 0 none none = .error err) ∧
    bucket_transform (.mk (some (.vstr "missing")) .none)
        MemoryStorageStrategy.init 0 none none =
      .error (.queryException
        ("Cannot query bucket that does not exist in transform: " ++ "missing")) :=
  ⟨(C7_query_fail_fast ⟨.cons (.mk (some (.vstr "missing")) .none) .nil, false⟩
      MemoryStorageStrategy.init 0 none none (.mk (some (.vstr "missing")) .none)
      "missing" (List.mem_singleton.mpr rfl) rfl (by decide)).1,
    (C7_query_fail_fast ⟨.cons (.mk (some (.vstr "missing")) .none) .nil, false⟩
      MemoryStorageStrategy.init 0 none none (.mk (some (.vstr "missing")) .none)
      "missing" (List.mem_singleton.mpr rfl) rfl (by decide)).2 (by decide)⟩

/-- C8: the missing-labels-field behavior of the two label filters is
asymmetric: with no labels entry, include_labels returns the empty list while
exclude_labels returns its input unchanged. -/
theorem C8_label_filters_missing_labels :
    ∀ (name : Option DVal) (transforms : OptTransforms)
      (events : List Event) (ds : Datastore) (limit : Int) (start stop : Option Int),
      Query.include_labels (.mk name none transforms) events ds limit start stop = [] ∧
      Query.exclude_labels (.mk name none transforms) events ds limit start stop =
        events :=
  fun _ _ _ _ _ _ _ => ⟨rfl, rfl⟩

/-- C9: for the in-memory backend, get on a never-created bucket id returns []
(for any limit) rather than failing; insert_one into a never-created bucket id
succeeds, creating the event log silently and leaving the metadata dict
untouched, and a subsequent get (with a non-negative limit) returns exactly
the inserted event. -/
theorem C9_memory_autovivify :
    ∀ (s : MemoryStorageStrategy) (b : String) (ev : Event) (limit limit2 : Int),
      s.db.lookup b = none → 0 ≤ limit2 →
      s.get b limit = [] ∧
      (s.insert_one b ev).get b limit2 = [ev] ∧
      (s.insert_one b ev)._metadata = s._metadata := by
  intro s b ev limit limit2 hnone hl2
  refine ⟨?_, ?_, rfl⟩
  · simp [MemoryStorageStrategy.get, hnone]
  · show MemoryStorageStrategy.get _ b limit2 = [ev]
    unfold MemoryStorageStrategy.get MemoryStorageStrategy.insert_one
    simp only [hnone, Option.isNone_none, if_pos]
    rw [lookup_insert_one_fresh s.db b ev hnone]
    exact pySliceFrom_singleton ev limit2 hl2

/-- Witness for C9 on the empty store. -/
theorem C9_memory_autovivify_witness :
    MemoryStorageStrategy.init.get "b" (-1) = [] ∧
    (MemoryStorageStrategy.init.insert_one "b" ⟨0, 1, []⟩).get "b" 1 = [⟨0, 1, []⟩] ∧
    (MemoryStorageStrategy.init.insert_one "b" ⟨0, 1, []⟩)._metadata =
      MemoryStorageStrategy.init._metadata :=
  C9_memory_autovivify MemoryStorageStrategy.init "b" ⟨0, 1, []⟩ (-1) 1 rfl (by decide)

/-- C10: for valid inputs, every event period_union emits carries the data
payload of the earliest event — the first, in (timestamp, duration) sort
order, whose timestamp equals the emitted segment's start — and the payloads
of all later events merged into the segment are discarded. -/
theorem C10_period_union_keeps_earliest_data :
    ∀ (events1 events2 : List Event) (o : Event),
      (∀ e ∈ events1 ++ events2, 0 ≤ e.duration) →
      o ∈ period_union events1 events2 →
      ∃ w, (sortEvents (events1 ++ events2)).find?
          (fun ev => ev.timestamp == o.timestamp) = some w ∧
        w.data = o.data ∧ w.timestamp = o.timestamp :=
  fun l1 l2 o h ho => period_union_find l1 l2 o h ho

/-- Witness for C10: the coalesced event (0,9) of the C6 scenario carries the
data of the earliest merged event. -/
theorem C10_period_union_keeps_earliest_data_witness :
    ∃ w, (sortEvents ([⟨0, 5, ["a"]⟩] ++ [⟨4, 5, ["b"]⟩])).find?
        (fun ev => ev.timestamp == (⟨0, 9, ["a"]⟩ : Event).timestamp) = some w ∧
      w.data = (⟨0, 9, ["a"]⟩ : Event).data ∧
      w.timestamp = (⟨0, 9, ["a"]⟩ : Event).timestamp :=
  C10_period_union_keeps_earliest_data [⟨0, 5, ["a"]⟩] [⟨4, 5, ["b"]⟩]
    ⟨0, 9, ["a"]⟩ (by decide) (by decide)
